import Mathlib

/-!
Verification development for `files/multipartfile.go` of the boxo repository:
a streamed MIME-multipart body decoded into a lazily materialized file tree.

The embedding is shallow and executable.  External collaborators are modelled
by their contracts, as the spec directs:
* the MIME tokenizer is a finite list of `Part` values (a `Part` carries the
  filename as returned by `FileName()` after URL-unescaping, which is an
  external collaborator, the `Content-Type` and `abspath` headers, and the
  body that `ioutil.ReadAll` would produce — `none` models an I/O failure
  while reading the body);
* `mime.ParseMediaType` is an oracle `parse : String → Option String`
  (`none` models a parse error);
* Go `path.Clean` and `path.Split` (stdlib) are embedded over `List Char`
  (the segment-stack formulation of the cleaning algorithm, and the
  split-after-last-separator rule).
-/

namespace MultipartFiles

/-- One MIME part as the tokenizer hands it to this core.  `filename` is the
result of the `fileName()` accessor (URL-unescaping already applied by the
external collaborator); `contentType` and `abspath` are the two header fields
the core reads; `body` is what reading the part body to the end yields, with
`none` standing for an I/O failure during that read. -/
structure Part where
  filename : String
  contentType : String
  abspath : String
  body : Option String
deriving DecidableEq, Repr

/-- The error values the core can produce (Go `error` values). -/
inductive PartErr where
  /-- `ErrPartOutsideParent` -/
  | partOutsideParent
  /-- `ErrPartInChildTree` -/
  | partInChildTree
  /-- an I/O error from `ioutil.ReadAll` on a symlink body -/
  | ioError
  /-- an error from `mime.ParseMediaType` -/
  | mediaTypeParse
  /-- `errors.New("cannot put multiple parts")` -/
  | cannotPutMultipleParts
  /-- `errors.New("cannot undo NextPart")` -/
  | cannotUndoNextPart
  /-- `ErrNotDirectory` -/
  | notDirectory
deriving DecidableEq, Repr

deriving instance DecidableEq for Except

/-- The node variants the core constructs: `NewLinkFile`, `ReaderFile` and a
nested `MultipartFile` directory.  A `file` keeps the part whose body stream
it wraps and the `abspath` header; a `dir` keeps the part that introduced the
directory boundary and the parsed media type (the shared reader is threaded
explicitly through the traversal state). -/
inductive Node where
  | symlink (target : String)
  | file (part : Part) (abspath : String)
  | dir (part : Part) (mediatype : String)
deriving DecidableEq, Repr

/-- The three node kinds, for stating traversal properties. -/
inductive NodeKind where
  | file
  | symlink
  | dir
deriving DecidableEq, Repr

def Node.kind : Node → NodeKind
  | .symlink _ => .symlink
  | .file _ _ => .file
  | .dir _ _ => .dir

/-! ## Constants of the Go source -/

def multipartFormdataType : String := "multipart/form-data"

def applicationDirectory : String := "application/x-directory"

def applicationSymlink : String := "application/symlink"

def applicationFile : String := "application/octet-stream"

/-- Go `isDirectory`. -/
def isDirectory (mediatype : String) : Bool :=
  mediatype == multipartFormdataType || mediatype == applicationDirectory

/-! ## Go `path.Split` and `path.Clean`, over `List Char` -/

/-- `splitLastSlash l = (dir, base)` with `dir ++ base = l`, `base` free of
`'/'` and `dir` empty or ending in `'/'`: Go `path.Split`. -/
def splitLastSlash : List Char → List Char × List Char
  | [] => ([], [])
  | c :: cs =>
    let p := splitLastSlash cs
    if p.1.isEmpty then
      if c = '/' then ([c], p.2) else ([], c :: p.2)
    else (c :: p.1, p.2)

/-- Go `path.Split`, on strings. -/
def pathSplit (p : String) : String × String :=
  let q := splitLastSlash p.toList
  (String.mk q.1, String.mk q.2)

/-- Split on `'/'`; always returns a non-empty list of (possibly empty)
slash-free segments. -/
def splitSegs : List Char → List (List Char)
  | [] => [[]]
  | c :: cs =>
    if c = '/' then [] :: splitSegs cs
    else
      match splitSegs cs with
      | s :: ss => (c :: s) :: ss
      | [] => [[c]]

/-- The cleaning pass of Go `path.Clean` on the segment list: empty and `"."`
segments are dropped, `".."` pops a previous real segment (at the root it is
dropped when the path is rooted and kept otherwise), and real segments are
pushed.  `acc` is the output stack, most recent first. -/
def cleanSegs (rooted : Bool) : List (List Char) → List (List Char) → List (List Char)
  | [], acc => acc.reverse
  | s :: rest, acc =>
    if s = [] ∨ s = ['.'] then cleanSegs rooted rest acc
    else if s = ['.', '.'] then
      match acc with
      | [] => if rooted then cleanSegs rooted rest [] else cleanSegs rooted rest [['.', '.']]
      | t :: acc' =>
        if t = ['.', '.'] then cleanSegs rooted rest (['.', '.'] :: t :: acc')
        else cleanSegs rooted rest acc'
    else cleanSegs rooted rest (s :: acc)

/-- Join segments with `'/'`. -/
def joinSegsChar : List (List Char) → List Char
  | [] => []
  | [s] => s
  | s :: rest => s ++ '/' :: joinSegsChar rest

/-- Go `path.Clean` over `List Char`. -/
def cleanList (l : List Char) : List Char :=
  if l = [] then ['.']
  else
    let rooted := l.head? == some '/'
    let out := joinSegsChar (cleanSegs rooted (splitSegs l) [])
    let out2 := if rooted then '/' :: out else out
    if out2 = [] then ['.'] else out2

/-- Go `path.Clean`, on strings. -/
def pathClean (p : String) : String :=
  String.mk (cleanList p.toList)

/-- Go `strings.HasPrefix s pfx`. -/
def goHasPrefix (s pfx : String) : Bool :=
  pfx.toList.isPrefixOf s.toList

/-- The normalization `newFileFromPart` applies after `path.Clean`:
`"."` becomes the empty (root) path. -/
def normRoot (s : String) : String :=
  if s = "." then "" else s

/-- The declared parent directory of a part, exactly as `newFileFromPart`
computes it: split the filename, `path.Clean` the directory half, turn `"."`
into the root path. -/
def dirOfPart (part : Part) : String :=
  normRoot (pathClean (pathSplit part.filename).1)

/-- Go `newFileFromPart(parent, part, reader)`.  Returns the base name and
the constructed node, or the error the Go function returns.  The `reader`
argument only matters for a nested directory, whose iterator reuses the
shared reader; the traversal state below threads that reader explicitly, so
it does not appear here. -/
def newFileFromPart (parse : String → Option String) (parent : String) (part : Part) :
    Except PartErr (String × Node) :=
  let dir := dirOfPart part
  let base := (pathSplit part.filename).2
  let par := normRoot (pathClean parent)
  if dir ≠ par then
    if goHasPrefix dir par then .error .partInChildTree
    else .error .partOutsideParent
  else if part.contentType = applicationSymlink then
    match part.body with
    | none => .error .ioError
    | some out => .ok (base, .symlink out)
  else if part.contentType = "" ∨ part.contentType = applicationFile then
    .ok (base, .file part part.abspath)
  else
    match parse part.contentType with
    | none => .error .mediaTypeParse
    | some mt =>
      if isDirectory mt then .ok (base, .dir part mt)
      else .ok (base, .file part part.abspath)

/-! ## The lookahead buffer: Go `peekReader` -/

/-- The state of the shared `peekReader`: `next` is the one pushed-back part
(`pr.next`), `r` the underlying raw reader, modelled as the list of parts it
has yet to produce, with `none` standing for `pr.r == nil` (the source was
seen to signal end-of-input and is never touched again). -/
structure PeekState where
  next : Option Part
  r : Option (List Part)
deriving DecidableEq, Repr

/-- Go `peekReader.NextPart`.  Returns `(some part, state)` on success and
`(none, state)` for `io.EOF`; when the underlying source signals end-of-input
it is marked exhausted (`r := none`). -/
def peekNextPart (st : PeekState) : Option Part × PeekState :=
  match st.next with
  | some p => (some p, ⟨none, st.r⟩)
  | none =>
    match st.r with
    | none => (none, st)
    | some [] => (none, ⟨none, none⟩)
    | some (p :: ps) => (some p, ⟨none, some ps⟩)

/-- Go `peekReader.put`.  On failure the state is returned unchanged (the Go
method only assigns `pr.next` in the success case). -/
def peekPut (st : PeekState) (p : Part) : Option PartErr × PeekState :=
  match st.next with
  | some _ => (some .cannotPutMultipleParts, st)
  | none => (none, ⟨some p, st.r⟩)

/-! ## The tree iterator: Go `multipartIterator` -/

/-- The mutable fields of a `multipartIterator` together with the shared
reader it drives.  `it.f.Reader` is the `peekReader` installed by
`NewFileFromPartReader` and handed unchanged to every nested directory by
`newFileFromPart`, so its state is part of the iterator state. -/
structure IterState where
  peek : PeekState
  curName : String
  curFile : Option Node
  err : Option PartErr
deriving DecidableEq, Repr

/-- One run of the `for` loop body of `multipartIterator.Next`, with explicit
fuel for the in-child-tree retry (the loop consumes one buffered part per
retry, so `pkSize + 1` fuel below always suffices; the fuel-out branch is
unreachable then).  `dirPath` is `it.f.fileName()`.  `isPeek` records whether
the type assertion `it.f.Reader.(*peekReader)` succeeds; every traversal
rooted at `NewFileFromPartReader` has `isPeek = true`. -/
def nextAux (parse : String → Option String) (isPeek : Bool) (dirPath : String) :
    Nat → IterState → Bool × IterState
  | 0, it => (false, it)
  | n + 1, it =>
    match peekNextPart it.peek with
    | (none, pk) => (false, { it with peek := pk })
    | (some part, pk) =>
      match newFileFromPart parse dirPath part with
      | .error .partOutsideParent =>
        if isPeek then
          let q := peekPut pk part
          (false, { it with peek := q.2, err := q.1 })
        else (false, { it with peek := pk, err := some .cannotUndoNextPart })
      | .error .partInChildTree => nextAux parse isPeek dirPath n { it with peek := pk }
      | .error e => (false, { it with peek := pk, curName := "", curFile := none, err := some e })
      | .ok (name, node) =>
        (true, { it with peek := pk, curName := name, curFile := some node, err := none })

/-- The number of parts the buffer can still produce: the pending slot plus
the unread tail of the source. -/
def pkSize (st : PeekState) : Nat :=
  (match st.next with | some _ => 1 | none => 0) +
    (match st.r with | some l => l.length | none => 0)

/-- Go `multipartIterator.Next`: the loop can run at most one iteration per
buffered part plus a final end-of-input or pushback iteration, so
`pkSize + 1` fuel is exact. -/
def next (parse : String → Option String) (isPeek : Bool) (dirPath : String)
    (it : IterState) : Bool × IterState :=
  nextAux parse isPeek dirPath (pkSize it.peek + 1) it

/-- Go `NewFileFromPartReader`: the root directory, valid only for a
recognized directory media type.  It wraps the raw reader in a fresh
`peekReader` (hence the `true`: the reader of every iterator in the resulting
traversal tree is that `peekReader`). -/
def NewFileFromPartReader (parts : List Part) (mediatype : String) :
    Except PartErr (PeekState × Bool) :=
  if isDirectory mediatype then .ok (⟨none, some parts⟩, true)
  else .error .notDirectory

/-! ## Well-formed inputs and the full-drain traversal protocol

A well-formed part sequence is one generated by a file tree: every part's
declared parent directory is the path of the directory being drained when the
part arrives, directory parts precede their children, and content types match
the node kinds.  The caller protocol of the doc comment on `MultipartFile`
("when iterator returns a directory, you MUST read all it's children before
calling Next again") is the `drainDir` function below. -/

mutual
/-- A file tree node: the generator of well-formed inputs.  `base` is the
entry's name (one path segment); files and directories carry the
`Content-Type` their part declares. -/
inductive FTree where
  | file (base ct abspath : String)
  | symlink (base target : String)
  | dir (base ct : String) (children : FForest)
deriving Repr

/-- A list of sibling trees. -/
inductive FForest where
  | nil
  | cons (t : FTree) (ts : FForest)
deriving Repr
end

/-- `joinPath d b`: the filename a child with base `b` of the directory at
path `d` declares (the root path is the empty string). -/
def joinPath (d b : String) : String :=
  if d = "" then b else d ++ "/" ++ b

mutual
/-- The part sequence a tree rooted under directory path `d` generates. -/
def partsOfTree (d : String) : FTree → List Part
  | .file b ct ab => [⟨joinPath d b, ct, ab, some ""⟩]
  | .symlink b t => [⟨joinPath d b, applicationSymlink, "", some t⟩]
  | .dir b ct cs => ⟨joinPath d b, ct, "", some ""⟩ :: partsOfForest (joinPath d b) cs

/-- The part sequence a forest of siblings under directory path `d`
generates: each tree's parts in order, depth-first, pre-order. -/
def partsOfForest (d : String) : FForest → List Part
  | .nil => []
  | .cons t ts => partsOfTree d t ++ partsOfForest d ts
end

mutual
/-- The `(path, node kind)` entries a full drain of a well-formed input must
yield: every part of the tree, in order, a directory entry followed by its
recursively yielded children. -/
def yieldsOfTree (d : String) : FTree → List (String × NodeKind)
  | .file b _ _ => [(joinPath d b, .file)]
  | .symlink b _ => [(joinPath d b, .symlink)]
  | .dir b _ cs => (joinPath d b, .dir) :: yieldsOfForest (joinPath d b) cs

def yieldsOfForest (d : String) : FForest → List (String × NodeKind)
  | .nil => []
  | .cons t ts => yieldsOfTree d t ++ yieldsOfForest d ts
end

mutual
/-- Number of nodes of a tree (fuel bound for `drainDir`). -/
def treeWeight : FTree → Nat
  | .file _ _ _ => 1
  | .symlink _ _ => 1
  | .dir _ _ cs => 1 + forestWeight cs

def forestWeight : FForest → Nat
  | .nil => 0
  | .cons t ts => treeWeight t + forestWeight ts
end

/-- A valid path segment: non-empty, slash-free, not `"."` or `".."` (so the
filename a part declares splits and cleans back to the path it was built
from). -/
def validSeg (b : String) : Bool :=
  b != "" && !b.toList.contains '/' && b != "." && b != ".."

/-- A content type a leaf file may declare: empty, `application/octet-stream`,
or any other non-symlink value that parses to a non-directory media type. -/
def fileCT (parse : String → Option String) (ct : String) : Bool :=
  ct == "" || ct == applicationFile ||
    (ct != applicationSymlink &&
      match parse ct with
      | some mt => !isDirectory mt
      | none => false)

/-- A content type a directory part may declare: a value distinct from the
three leaf cases that parses to a recognized directory media type. -/
def dirCT (parse : String → Option String) (ct : String) : Bool :=
  ct != "" && ct != applicationFile && ct != applicationSymlink &&
    (match parse ct with
     | some mt => isDirectory mt
     | none => false)

mutual
/-- Well-formedness of a tree: valid bases and matching content types. -/
def wfTree (parse : String → Option String) : FTree → Bool
  | .file b ct _ => validSeg b && fileCT parse ct
  | .symlink b _ => validSeg b
  | .dir b ct cs => validSeg b && dirCT parse ct && wfForest parse cs

def wfForest (parse : String → Option String) : FForest → Bool
  | .nil => true
  | .cons t ts => wfTree parse t && wfForest parse ts
end

/-- The caller of the spec's protocol: repeatedly advance this directory's
iterator; when it yields a nested directory, construct that directory's
iterator (`Entries`: fresh `curName`/`curFile`/`err`, the same shared
reader) and drain it completely before advancing this one.  Records the
full path and kind of every yielded entry, depth-first.  `none` means the
fuel ran out (never with `forestWeight` fuel, as proved below). -/
def drainDir (parse : String → Option String) :
    Nat → String → IterState → Option (List (String × NodeKind) × IterState)
  | 0, _, _ => none
  | n + 1, dirPath, it =>
    match next parse true dirPath it with
    | (false, it') => some ([], it')
    | (true, it') =>
      match it'.curFile with
      | some (Node.dir p _) =>
        match drainDir parse n p.filename ⟨it'.peek, "", none, none⟩ with
        | none => none
        | some (cys, child) =>
          match child.err with
          | some e =>
            some ((joinPath dirPath it'.curName, NodeKind.dir) :: cys,
              { it' with peek := child.peek, err := some e })
          | none =>
            match drainDir parse n dirPath { it' with peek := child.peek } with
            | none => none
            | some (rys, itr) =>
              some ((joinPath dirPath it'.curName, NodeKind.dir) :: (cys ++ rys), itr)
      | some nd =>
        match drainDir parse n dirPath it' with
        | none => none
        | some (rys, itr) => some ((joinPath dirPath it'.curName, nd.kind) :: rys, itr)
      | none => some ([], it')

/-- `st` holds exactly the parts `l`, in order: either nothing is pending and
the source holds `l` (or is exhausted and `l` is empty), or the head of `l`
is pending and the source holds the tail. -/
def represents (st : PeekState) (l : List Part) : Prop :=
  match st.next with
  | some p => ∃ t, l = p :: t ∧ st.r = some t
  | none => st.r = some l ∨ (st.r = none ∧ l = [])

/-- The head of `l` (if any) is outside the directory at path `cp`: its
declared parent directory does not have `cp` as a string prefix. -/
def headOutside (cp : String) : List Part → Prop
  | [] => True
  | h :: _ => goHasPrefix (dirOfPart h) cp = false

/-- A canonical directory path: the root, or segments joined by `'/'`.
Exactly the paths a well-formed traversal drains. -/
inductive ValidPath : String → Prop where
  | root : ValidPath ""
  | step (d b : String) : ValidPath d → validSeg b = true → ValidPath (joinPath d b)

/-! ## Concrete instances used by witnesses and the counterexample -/

/-- A valid path segment, on `List Char` (the form the path lemmas use). -/
def validSegL (s : List Char) : Prop :=
  s ≠ [] ∧ '/' ∉ s ∧ s ≠ ['.'] ∧ s ≠ ['.', '.']

/-- A concrete media-type oracle: parsing fails on `"bad;"` and is the
identity elsewhere (as `mime.ParseMediaType` errors on a malformed value and
returns the type itself for a plain one). -/
def parse0 : String → Option String :=
  fun ct => if ct = "bad;" then none else some ct

/-- A symlink part whose body read fails with an I/O error. -/
def cexPart1 : Part := ⟨"bad.lnk", applicationSymlink, "", none⟩

/-- A plain file part at the root. -/
def cexPart2 : Part := ⟨"ok.txt", "", "", some ""⟩

/-- The orphan parts of the spec's discard-on-orphan scenario. -/
def orphanParts : List Part :=
  [⟨"a/x.txt", applicationFile, "", some ""⟩,
   ⟨"a/y.txt", applicationFile, "", some ""⟩,
   ⟨"b.txt", applicationFile, "", some ""⟩]

/-- The spec's nested scenario as a tree: a directory `a` with children
`x.txt` and `y.txt`, then a top-level `b.txt`. -/
def scenarioForest : FForest :=
  .cons (.dir "a" multipartFormdataType
      (.cons (.file "x.txt" "" "") (.cons (.file "y.txt" "" "") .nil)))
    (.cons (.file "b.txt" "" "") .nil)

/-- A symlink part at the root whose body is `"../target"`. -/
def lnkPart : Part := ⟨"link", applicationSymlink, "", some "../target"⟩

/-- A nested-directory part at the root declaring `application/x-directory`. -/
def xdirPart : Part := ⟨"d", applicationDirectory, "", some ""⟩

/-- A root-level file part (outside any non-root directory). -/
def outsidePart : Part := ⟨"z.txt", "", "", some ""⟩

/-! ## Lemmas about the path functions -/

theorem splitLastSlash_no_slash {l : List Char} (h : '/' ∉ l) :
    splitLastSlash l = ([], l) := by
  induction l with
  | nil => rfl
  | cons c cs ih =>
    have hc : ¬c = '/' := fun e => h (e ▸ List.mem_cons_self c cs)
    have hcs : '/' ∉ cs := fun m => h (List.mem_cons_of_mem c m)
    simp [splitLastSlash, ih hcs, hc]

theorem splitLastSlash_append {d b : List Char} (hb : '/' ∉ b) :
    splitLastSlash (d ++ '/' :: b) = (d ++ ['/'], b) := by
  induction d with
  | nil => simp [splitLastSlash, splitLastSlash_no_slash hb]
  | cons c cs ih => simp [splitLastSlash, ih]

theorem splitSegs_no_slash {s : List Char} (h : '/' ∉ s) : splitSegs s = [s] := by
  induction s with
  | nil => rfl
  | cons c cs ih =>
    have hc : ¬c = '/' := fun e => h (e ▸ List.mem_cons_self c cs)
    have hcs : '/' ∉ cs := fun m => h (List.mem_cons_of_mem c m)
    simp [splitSegs, hc, ih hcs]

theorem splitSegs_append {s t : List Char} (h : '/' ∉ s) :
    splitSegs (s ++ '/' :: t) = s :: splitSegs t := by
  induction s with
  | nil => simp [splitSegs]
  | cons c cs ih =>
    have hc : ¬c = '/' := fun e => h (e ▸ List.mem_cons_self c cs)
    have hcs : '/' ∉ cs := fun m => h (List.mem_cons_of_mem c m)
    simp [splitSegs, hc, ih hcs]

theorem joinSegsChar_cons {s : List Char} {ss : List (List Char)} (h : ss ≠ []) :
    joinSegsChar (s :: ss) = s ++ '/' :: joinSegsChar ss := by
  cases ss with
  | nil => exact absurd rfl h
  | cons a as => rfl

theorem joinSegsChar_append_single {ss : List (List Char)} {s : List Char} (h : ss ≠ []) :
    joinSegsChar (ss ++ [s]) = joinSegsChar ss ++ '/' :: s := by
  induction ss with
  | nil => exact absurd rfl h
  | cons a as ih =>
    cases as with
    | nil => rfl
    | cons b bs =>
      rw [List.cons_append, joinSegsChar_cons (by simp), joinSegsChar_cons (by simp),
        ih (by simp)]
      simp

theorem cleanSegs_valid {ss : List (List Char)} (rooted : Bool)
    (h : ∀ s ∈ ss, s = [] ∨ validSegL s) :
    ∀ acc, cleanSegs rooted ss acc = acc.reverse ++ ss.filter (fun s => !s.isEmpty) := by
  induction ss with
  | nil => intro acc; simp [cleanSegs]
  | cons s rest ih =>
    intro acc
    have hrest : ∀ x ∈ rest, x = [] ∨ validSegL x :=
      fun x hx => h x (List.mem_cons_of_mem s hx)
    rcases h s (List.mem_cons_self s rest) with he | ⟨h1, _, h3, h4⟩
    · subst he
      simp [cleanSegs, ih hrest]
    · simp only [cleanSegs, h1, h3, h4, false_or, if_false, ite_false, ih hrest]
      simp [List.filter_cons, h1]

theorem splitSegs_join {ss : List (List Char)} (h : ∀ s ∈ ss, validSegL s) (hne : ss ≠ []) :
    splitSegs (joinSegsChar ss) = ss := by
  induction ss with
  | nil => exact absurd rfl hne
  | cons a as ih =>
    have ha : '/' ∉ a := (h a (List.mem_cons_self a as)).2.1
    cases as with
    | nil => exact splitSegs_no_slash ha
    | cons b bs =>
      rw [joinSegsChar_cons (by simp), splitSegs_append ha,
        ih (fun x hx => h x (List.mem_cons_of_mem a hx)) (by simp)]

theorem splitSegs_join_slash {ss : List (List Char)} (h : ∀ s ∈ ss, validSegL s)
    (hne : ss ≠ []) :
    splitSegs (joinSegsChar ss ++ ['/']) = ss ++ [[]] := by
  induction ss with
  | nil => exact absurd rfl hne
  | cons a as ih =>
    have ha : '/' ∉ a := (h a (List.mem_cons_self a as)).2.1
    cases as with
    | nil =>
      show splitSegs (a ++ '/' :: []) = [a, []]
      rw [splitSegs_append ha]
      rfl
    | cons b bs =>
      rw [joinSegsChar_cons (by simp), List.cons_append, List.append_assoc,
        List.cons_append]
      rw [splitSegs_append ha,
        ih (fun x hx => h x (List.mem_cons_of_mem a hx)) (by simp)]

theorem joinSegsChar_ne_nil {ss : List (List Char)} (h : ∀ s ∈ ss, validSegL s)
    (hne : ss ≠ []) : joinSegsChar ss ≠ [] := by
  cases ss with
  | nil => exact absurd rfl hne
  | cons a as =>
    have ha : a ≠ [] := (h a (List.mem_cons_self a as)).1
    cases as with
    | nil => exact ha
    | cons b bs =>
      rw [joinSegsChar_cons (by simp)]
      simp [ha]

theorem joinSegsChar_head {ss : List (List Char)} (h : ∀ s ∈ ss, validSegL s)
    (hne : ss ≠ []) : ¬(joinSegsChar ss).head? = some '/' := by
  cases ss with
  | nil => exact absurd rfl hne
  | cons a as =>
    obtain ⟨ha1, ha2, -, -⟩ := h a (List.mem_cons_self a as)
    cases a with
    | nil => exact absurd rfl ha1
    | cons c cs =>
      have hc : ¬c = '/' := fun e => ha2 (e ▸ List.mem_cons_self c cs)
      cases as with
      | nil => simpa [joinSegsChar] using hc
      | cons b bs =>
        rw [joinSegsChar_cons (by simp)]
        simpa using hc

theorem joinSegsChar_ne_dot {ss : List (List Char)} (h : ∀ s ∈ ss, validSegL s)
    (hne : ss ≠ []) : joinSegsChar ss ≠ ['.'] := by
  cases ss with
  | nil => exact absurd rfl hne
  | cons a as =>
    obtain ⟨-, -, ha3, -⟩ := h a (List.mem_cons_self a as)
    cases as with
    | nil => exact ha3
    | cons b bs =>
      rw [joinSegsChar_cons (by simp)]
      intro e
      have hlen : ((a ++ '/' :: joinSegsChar (b :: bs)).length) = 1 := by rw [e]; rfl
      have hb : joinSegsChar (b :: bs) ≠ [] :=
        joinSegsChar_ne_nil (fun x hx => h x (List.mem_cons_of_mem a hx)) (by simp)
      have hpos : 0 < (joinSegsChar (b :: bs)).length := List.length_pos.mpr hb
      simp [List.length_append] at hlen
      omega

theorem cleanList_join {ss : List (List Char)} (h : ∀ s ∈ ss, validSegL s)
    (hne : ss ≠ []) : cleanList (joinSegsChar ss) = joinSegsChar ss := by
  have hnil := joinSegsChar_ne_nil h hne
  have hhead := joinSegsChar_head h hne
  have hfilter : List.filter (fun s => !s.isEmpty) ss = ss :=
    List.filter_eq_self.mpr fun s hs => by
      simpa using (h s hs).1
  have hrooted : ((joinSegsChar ss).head? == some '/') = false := by
    simpa using hhead
  simp only [cleanList, hnil, if_false, ite_false, hrooted, splitSegs_join h hne,
    cleanSegs_valid false (fun s hs => Or.inr (h s hs)) [], List.reverse_nil,
    List.nil_append, hfilter, Bool.false_eq_true]

theorem cleanList_join_slash {ss : List (List Char)} (h : ∀ s ∈ ss, validSegL s)
    (hne : ss ≠ []) : cleanList (joinSegsChar ss ++ ['/']) = joinSegsChar ss := by
  have hnil := joinSegsChar_ne_nil h hne
  have hhead := joinSegsChar_head h hne
  have hfilter : List.filter (fun s => !s.isEmpty) ss = ss :=
    List.filter_eq_self.mpr fun s hs => by
      simpa using (h s hs).1
  have hnil2 : joinSegsChar ss ++ ['/'] ≠ [] := by simp
  have hrooted : ((joinSegsChar ss ++ ['/']).head? == some '/') = false := by
    cases hj : joinSegsChar ss with
    | nil => exact absurd hj hnil
    | cons c cs =>
      have hc : ¬c = '/' := by
        rw [hj] at hhead
        simpa using hhead
      simpa using hc
  have hvalid : ∀ s ∈ ss ++ [[]], s = [] ∨ validSegL s := by
    intro s hs
    rcases List.mem_append.mp hs with hs | hs
    · exact Or.inr (h s hs)
    · left; simpa using hs
  simp only [cleanList, hnil2, if_false, ite_false, hrooted,
    splitSegs_join_slash h hne, cleanSegs_valid false hvalid [], List.reverse_nil,
    List.nil_append, List.filter_append, hfilter, List.filter_cons,
    List.isEmpty_nil, Bool.not_true, List.filter_nil, List.append_nil,
    Bool.false_eq_true]
  rw [if_neg hnil]

/-! ## String-level path lemmas -/

theorem toList_mk (l : List Char) : (String.mk l).toList = l := rfl

theorem mk_toList (s : String) : String.mk s.toList = s := rfl

theorem toList_eq_nil {s : String} (h : s.toList = []) : s = "" :=
  String.ext h

theorem toList_append (s t : String) : (s ++ t).toList = s.toList ++ t.toList :=
  String.data_append s t

theorem validSeg_toList {b : String} (h : validSeg b = true) : validSegL b.toList := by
  have h1 : b ≠ "" := by
    simp only [validSeg, Bool.and_eq_true, bne_iff_ne] at h
    exact h.1.1.1
  have h2 : ¬b.toList.contains '/' = true := by
    simp only [validSeg, Bool.and_eq_true] at h
    simpa using h.1.1.2
  have h3 : b ≠ "." := by
    simp only [validSeg, Bool.and_eq_true, bne_iff_ne] at h
    exact h.1.2
  have h4 : b ≠ ".." := by
    simp only [validSeg, Bool.and_eq_true, bne_iff_ne] at h
    exact h.2
  refine ⟨fun e => h1 (toList_eq_nil e), ?_, fun e => h3 (String.ext e), fun e => h4 (String.ext e)⟩
  intro hm
  apply h2
  simpa using hm

theorem validPath_segs {cp : String} (h : ValidPath cp) :
    cp = "" ∨ ∃ ss, ss ≠ [] ∧ (∀ s ∈ ss, validSegL s) ∧ cp.toList = joinSegsChar ss := by
  induction h with
  | root => exact Or.inl rfl
  | step d b hd hb ih =>
    right
    rcases ih with rfl | ⟨ss, h1, h2, h3⟩
    · refine ⟨[b.toList], by simp, ?_, ?_⟩
      · intro s hs
        rw [List.mem_singleton] at hs
        exact hs ▸ validSeg_toList hb
      · simp [joinPath, joinSegsChar]
    · have hd' : d ≠ "" := by
        intro e
        apply joinSegsChar_ne_nil h2 h1
        rw [← h3, e]
        rfl
      refine ⟨ss ++ [b.toList], by simp, ?_, ?_⟩
      · intro s hs
        rcases List.mem_append.mp hs with hs | hs
        · exact h2 s hs
        · rw [List.mem_singleton] at hs
          exact hs ▸ validSeg_toList hb
      · rw [joinSegsChar_append_single h1, ← h3]
        simp only [joinPath, hd', if_false, ite_false]
        rw [toList_append, toList_append, List.append_assoc]
        rfl

theorem normClean_validPath {cp : String} (h : ValidPath cp) :
    normRoot (pathClean cp) = cp := by
  rcases validPath_segs h with rfl | ⟨ss, h1, h2, h3⟩
  · rfl
  · unfold pathClean normRoot
    rw [h3, cleanList_join h2 h1, ← h3, mk_toList]
    have hne : cp ≠ "." := by
      intro e
      apply joinSegsChar_ne_dot h2 h1
      rw [← h3, e]
      rfl
    rw [if_neg hne]

theorem dirOfPart_join {d b : String} (hd : ValidPath d) (hb : validSeg b = true)
    {part : Part} (hf : part.filename = joinPath d b) :
    dirOfPart part = d ∧ (pathSplit part.filename).2 = b := by
  obtain ⟨hb1, hb2, -, -⟩ := validSeg_toList hb
  rcases validPath_segs hd with rfl | ⟨ss, h1, h2, h3⟩
  · have hjb : joinPath "" b = b := by simp [joinPath]
    unfold dirOfPart pathSplit
    rw [hf, hjb, splitLastSlash_no_slash hb2]
    refine ⟨?_, mk_toList b⟩
    show normRoot (pathClean (String.mk [])) = ""
    decide
  · have hd' : d ≠ "" := by
      intro e
      apply joinSegsChar_ne_nil h2 h1
      rw [← h3, e]
      rfl
    have hfl : part.filename.toList = d.toList ++ '/' :: b.toList := by
      rw [hf]
      simp only [joinPath, hd', if_false, ite_false]
      rw [toList_append, toList_append, List.append_assoc]
      rfl
    unfold dirOfPart pathSplit
    rw [hfl, splitLastSlash_append hb2]
    constructor
    · show normRoot (pathClean (String.mk (d.toList ++ ['/']))) = d
      unfold pathClean
      rw [toList_mk, h3, cleanList_join_slash h2 h1, ← h3, mk_toList]
      unfold normRoot
      have hne : d ≠ "." := by
        intro e
        apply joinSegsChar_ne_dot h2 h1
        rw [← h3, e]
        rfl
      rw [if_neg hne]
    · rfl

/-! ## Lemmas about `goHasPrefix` -/

theorem goHasPrefix_refl (s : String) : goHasPrefix s s = true := by
  simp [goHasPrefix, List.isPrefixOf_iff_prefix]

theorem goHasPrefix_join (d b : String) : goHasPrefix (joinPath d b) d = true := by
  unfold goHasPrefix joinPath
  split
  · next h =>
    subst h
    simp [List.isPrefixOf_iff_prefix]
  · rw [List.isPrefixOf_iff_prefix, toList_append, toList_append]
    exact (List.prefix_append _ _).trans (List.prefix_append _ _) |>.trans List.prefix_rfl

theorem goHasPrefix_of_longer {d b : String} (hb : validSeg b = true) :
    goHasPrefix d (joinPath d b) = false := by
  obtain ⟨hb1, -, -, -⟩ := validSeg_toList hb
  have hblen : 0 < b.toList.length := List.length_pos.mpr hb1
  have hlen : d.toList.length < (joinPath d b).toList.length := by
    unfold joinPath
    split
    · next h =>
      subst h
      simpa using hblen
    · rw [toList_append, toList_append, List.append_assoc]
      have hcons : "/".toList ++ b.toList = '/' :: b.toList := rfl
      rw [hcons]
      simp [List.length_append]
  rw [goHasPrefix, ← Bool.not_eq_true, List.isPrefixOf_iff_prefix]
  intro hpre
  exact absurd hpre.length_le (by omega)

theorem goHasPrefix_extend_false {x d b : String} (h : goHasPrefix x d = false) :
    goHasPrefix x (joinPath d b) = false := by
  rw [goHasPrefix, ← Bool.not_eq_true, List.isPrefixOf_iff_prefix]
  intro hpre
  rw [goHasPrefix, ← Bool.not_eq_true, List.isPrefixOf_iff_prefix] at h
  apply h
  refine List.IsPrefix.trans ?_ hpre
  unfold joinPath
  split
  · next he =>
    subst he
    simp
  · rw [toList_append, toList_append]
    exact (List.prefix_append _ _).trans (List.prefix_append _ _) |>.trans List.prefix_rfl

/-! ## Classification lemmas for `newFileFromPart` -/

theorem newFileFromPart_scope_inChild {parse : String → Option String} {parent : String}
    {part : Part} (hne : dirOfPart part ≠ normRoot (pathClean parent))
    (hpre : goHasPrefix (dirOfPart part) (normRoot (pathClean parent)) = true) :
    newFileFromPart parse parent part = .error .partInChildTree := by
  unfold newFileFromPart
  simp [hne, hpre]

theorem newFileFromPart_scope_outside {parse : String → Option String} {parent : String}
    {part : Part} (hne : dirOfPart part ≠ normRoot (pathClean parent))
    (hpre : goHasPrefix (dirOfPart part) (normRoot (pathClean parent)) = false) :
    newFileFromPart parse parent part = .error .partOutsideParent := by
  unfold newFileFromPart
  simp [hne, hpre]

theorem newFileFromPart_outside_of_validPath {parse : String → Option String}
    {cp : String} {part : Part} (hcp : ValidPath cp)
    (h : goHasPrefix (dirOfPart part) cp = false) :
    newFileFromPart parse cp part = .error .partOutsideParent := by
  have hnorm := normClean_validPath hcp
  have hne : dirOfPart part ≠ normRoot (pathClean cp) := by
    rw [hnorm]
    intro e
    rw [e, goHasPrefix_refl] at h
    simp at h
  apply newFileFromPart_scope_outside hne
  rw [hnorm]
  exact h

theorem newFileFromPart_direct {parse : String → Option String} {cp : String}
    {part : Part} (heq : dirOfPart part = normRoot (pathClean cp)) :
    newFileFromPart parse cp part =
      (if part.contentType = applicationSymlink then
        match part.body with
        | none => .error .ioError
        | some out => .ok ((pathSplit part.filename).2, .symlink out)
      else if part.contentType = "" ∨ part.contentType = applicationFile then
        .ok ((pathSplit part.filename).2, .file part part.abspath)
      else
        match parse part.contentType with
        | none => .error .mediaTypeParse
        | some mt =>
          if isDirectory mt then .ok ((pathSplit part.filename).2, .dir part mt)
          else .ok ((pathSplit part.filename).2, .file part part.abspath)) := by
  unfold newFileFromPart
  simp [heq]

theorem classify_file {parse : String → Option String} {cp : String} {part : Part}
    (heq : dirOfPart part = normRoot (pathClean cp))
    (hct : fileCT parse part.contentType = true) :
    newFileFromPart parse cp part =
      .ok ((pathSplit part.filename).2, .file part part.abspath) := by
  rw [newFileFromPart_direct heq]
  have hsym : part.contentType ≠ applicationSymlink := by
    intro e
    rw [fileCT, e] at hct
    simp only [bne_self_eq_false, Bool.false_and, Bool.or_false, Bool.or_eq_true,
      beq_iff_eq] at hct
    exact absurd hct (by decide)
  rw [if_neg hsym]
  by_cases hfo : part.contentType = "" ∨ part.contentType = applicationFile
  · rw [if_pos hfo]
  · rw [if_neg hfo]
    have hA : (part.contentType == "") = false := by
      simp only [beq_eq_false_iff_ne, ne_eq]
      exact fun e => hfo (Or.inl e)
    have hB : (part.contentType == applicationFile) = false := by
      simp only [beq_eq_false_iff_ne, ne_eq]
      exact fun e => hfo (Or.inr e)
    rw [fileCT, hA, hB] at hct
    simp only [Bool.false_or, Bool.and_eq_true, bne_iff_ne] at hct
    obtain ⟨-, hD⟩ := hct
    cases hp : parse part.contentType with
    | none => rw [hp] at hD; simp at hD
    | some mt =>
      rw [hp] at hD
      have hmt : isDirectory mt = false := by
        have hnot : (!isDirectory mt) = true := hD
        simpa using hnot
      simp [hmt]

theorem classify_symlink {parse : String → Option String} {cp : String} {part : Part}
    (heq : dirOfPart part = normRoot (pathClean cp))
    (hct : part.contentType = applicationSymlink) {tg : String}
    (hbody : part.body = some tg) :
    newFileFromPart parse cp part = .ok ((pathSplit part.filename).2, .symlink tg) := by
  rw [newFileFromPart_direct heq, if_pos hct, hbody]

theorem classify_dir {parse : String → Option String} {cp : String} {part : Part}
    (heq : dirOfPart part = normRoot (pathClean cp))
    (hct : dirCT parse part.contentType = true) :
    ∃ mt, parse part.contentType = some mt ∧ isDirectory mt = true ∧
      newFileFromPart parse cp part = .ok ((pathSplit part.filename).2, .dir part mt) := by
  simp only [dirCT, Bool.and_eq_true, bne_iff_ne] at hct
  obtain ⟨⟨⟨hne, hfo⟩, hsym⟩, hp⟩ := hct
  cases hpm : parse part.contentType with
  | none => rw [hpm] at hp; simp at hp
  | some mt =>
    rw [hpm] at hp
    have hp' : isDirectory mt = true := hp
    refine ⟨mt, rfl, hp', ?_⟩
    rw [newFileFromPart_direct heq, if_neg hsym,
      if_neg (by rintro (e | e); exacts [hne e, hfo e]), hpm]
    simp [hp']

/-! ## Lemmas about the lookahead buffer and `represents` -/

theorem peekNextPart_some_next {st pk : PeekState} {p : Part}
    (h : peekNextPart st = (some p, pk)) : pk.next = none := by
  obtain ⟨nx, r⟩ := st
  cases nx with
  | some q => simp [peekNextPart] at h; rw [← h.2]
  | none =>
    cases r with
    | none => simp [peekNextPart] at h
    | some l =>
      cases l with
      | nil => simp [peekNextPart] at h
      | cons a as => simp [peekNextPart] at h; rw [← h.2]

theorem represents_pull {st : PeekState} {p : Part} {l : List Part}
    (h : represents st (p :: l)) : peekNextPart st = (some p, ⟨none, some l⟩) := by
  obtain ⟨nx, r⟩ := st
  cases nx with
  | some q =>
    obtain ⟨t, ht, hr⟩ := h
    injection ht with h1 h2
    subst h1
    subst h2
    subst hr
    rfl
  | none =>
    rcases h with hr | ⟨-, he⟩
    · subst hr; rfl
    · exact absurd he (by simp)

theorem represents_nil_pull {st : PeekState} (h : represents st []) :
    peekNextPart st = (none, ⟨none, none⟩) := by
  obtain ⟨nx, r⟩ := st
  cases nx with
  | some q => obtain ⟨t, ht, -⟩ := h; exact absurd ht (by simp)
  | none =>
    rcases h with hr | ⟨hr, -⟩
    · subst hr; rfl
    · simp only at hr; subst hr; rfl

theorem represents_size {st : PeekState} {l : List Part} (h : represents st l) :
    pkSize st = l.length := by
  obtain ⟨nx, r⟩ := st
  cases nx with
  | some q =>
    obtain ⟨t, ht, hr⟩ := h
    subst hr
    subst ht
    simp [pkSize, Nat.add_comm]
  | none =>
    rcases h with hr | ⟨hr, he⟩
    · subst hr; simp [pkSize]
    · simp only at hr; subst hr; subst he; simp [pkSize]

theorem represents_empty : represents ⟨none, some []⟩ [] := Or.inl rfl

theorem represents_drained : represents ⟨none, none⟩ [] := Or.inr ⟨rfl, rfl⟩

theorem represents_source (l : List Part) : represents ⟨none, some l⟩ l := Or.inl rfl

theorem represents_pushed (p : Part) (l : List Part) :
    represents ⟨some p, some l⟩ (p :: l) := ⟨l, rfl, rfl⟩

/-! ## Step lemmas for the iterator -/

theorem nextAux_eof {parse : String → Option String} {isPeek : Bool} {cp : String}
    {n : Nat} {it : IterState} {pk : PeekState}
    (h : peekNextPart it.peek = (none, pk)) :
    nextAux parse isPeek cp (n + 1) it = (false, { it with peek := pk }) := by
  rw [nextAux, h]

theorem nextAux_yield {parse : String → Option String} {isPeek : Bool} {cp : String}
    {n : Nat} {it : IterState} {p : Part} {pk : PeekState} {nm : String} {nd : Node}
    (hpull : peekNextPart it.peek = (some p, pk))
    (hclass : newFileFromPart parse cp p = .ok (nm, nd)) :
    nextAux parse isPeek cp (n + 1) it =
      (true, { it with peek := pk, curName := nm, curFile := some nd, err := none }) := by
  rw [nextAux, hpull]
  simp only [hclass]

theorem nextAux_outside {parse : String → Option String} {cp : String}
    {n : Nat} {it : IterState} {p : Part} {pk : PeekState}
    (hpull : peekNextPart it.peek = (some p, pk))
    (hclass : newFileFromPart parse cp p = .error .partOutsideParent) :
    nextAux parse true cp (n + 1) it =
      (false, { it with peek := ⟨some p, pk.r⟩, err := none }) := by
  have hempty : pk.next = none := peekNextPart_some_next hpull
  rw [nextAux, hpull]
  simp only [hclass]
  simp [peekPut, hempty]

theorem nextAux_outside_noPeek {parse : String → Option String} {cp : String}
    {n : Nat} {it : IterState} {p : Part} {pk : PeekState}
    (hpull : peekNextPart it.peek = (some p, pk))
    (hclass : newFileFromPart parse cp p = .error .partOutsideParent) :
    nextAux parse false cp (n + 1) it =
      (false, { it with peek := pk, err := some .cannotUndoNextPart }) := by
  rw [nextAux, hpull]
  simp only [hclass]
  rfl

theorem nextAux_skip {parse : String → Option String} {isPeek : Bool} {cp : String}
    {n : Nat} {it : IterState} {p : Part} {pk : PeekState}
    (hpull : peekNextPart it.peek = (some p, pk))
    (hclass : newFileFromPart parse cp p = .error .partInChildTree) :
    nextAux parse isPeek cp (n + 1) it = nextAux parse isPeek cp n { it with peek := pk } := by
  rw [nextAux, hpull]
  simp only [hclass]

theorem nextAux_fail {parse : String → Option String} {isPeek : Bool} {cp : String}
    {n : Nat} {it : IterState} {p : Part} {pk : PeekState} {e : PartErr}
    (hpull : peekNextPart it.peek = (some p, pk))
    (hclass : newFileFromPart parse cp p = .error e)
    (h1 : e ≠ .partOutsideParent) (h2 : e ≠ .partInChildTree) :
    nextAux parse isPeek cp (n + 1) it =
      (false, { it with peek := pk, curName := "", curFile := none, err := some e }) := by
  cases e with
  | partOutsideParent => exact absurd rfl h1
  | partInChildTree => exact absurd rfl h2
  | ioError => rw [nextAux, hpull]; simp only [hclass]
  | mediaTypeParse => rw [nextAux, hpull]; simp only [hclass]
  | cannotPutMultipleParts => rw [nextAux, hpull]; simp only [hclass]
  | cannotUndoNextPart => rw [nextAux, hpull]; simp only [hclass]
  | notDirectory => rw [nextAux, hpull]; simp only [hclass]

theorem next_eof {parse : String → Option String} {isPeek : Bool} {cp : String}
    {it : IterState} (h : represents it.peek []) :
    next parse isPeek cp it = (false, { it with peek := ⟨none, none⟩ }) := by
  rw [next, represents_size h]
  exact nextAux_eof (represents_nil_pull h)

theorem next_yield {parse : String → Option String} {isPeek : Bool} {cp : String}
    {it : IterState} {p : Part} {l : List Part} {nm : String} {nd : Node}
    (h : represents it.peek (p :: l))
    (hclass : newFileFromPart parse cp p = .ok (nm, nd)) :
    next parse isPeek cp it =
      (true, (⟨⟨none, some l⟩, nm, some nd, none⟩ : IterState)) := by
  rw [next, represents_size h]
  exact nextAux_yield (represents_pull h) hclass

theorem next_outside {parse : String → Option String} {cp : String}
    {it : IterState} {p : Part} {l : List Part}
    (h : represents it.peek (p :: l))
    (hclass : newFileFromPart parse cp p = .error .partOutsideParent) :
    next parse true cp it = (false, { it with peek := ⟨some p, some l⟩, err := none }) := by
  rw [next, represents_size h]
  exact nextAux_outside (represents_pull h) hclass

theorem next_fail {parse : String → Option String} {isPeek : Bool} {cp : String}
    {it : IterState} {p : Part} {l : List Part} {e : PartErr}
    (h : represents it.peek (p :: l))
    (hclass : newFileFromPart parse cp p = .error e)
    (h1 : e ≠ .partOutsideParent) (h2 : e ≠ .partInChildTree) :
    next parse isPeek cp it =
      (false, (⟨⟨none, some l⟩, "", none, some e⟩ : IterState)) := by
  rw [next, represents_size h]
  exact nextAux_fail (represents_pull h) hclass h1 h2

/-! ## The full-drain traversal theorem -/

theorem partsOfTree_shape {parse : String → Option String} (d : String) (t : FTree)
    (hwf : wfTree parse t = true) :
    ∃ b p tl, validSeg b = true ∧ p.filename = joinPath d b ∧
      partsOfTree d t = p :: tl := by
  cases t with
  | file b ct ab =>
    simp only [wfTree, Bool.and_eq_true] at hwf
    exact ⟨b, _, [], hwf.1, rfl, rfl⟩
  | symlink b tg =>
    exact ⟨b, _, [], hwf, rfl, rfl⟩
  | dir b ct cs =>
    simp only [wfTree, Bool.and_eq_true] at hwf
    exact ⟨b, _, partsOfForest (joinPath d b) cs, hwf.1.1, rfl, rfl⟩

theorem headOutside_sub {parse : String → Option String} {cp b : String} {ts : FForest}
    {rest : List Part} (hcp : ValidPath cp) (hb : validSeg b = true)
    (hwf : wfForest parse ts = true) (hro : headOutside cp rest) :
    headOutside (joinPath cp b) (partsOfForest cp ts ++ rest) := by
  cases ts with
  | nil =>
    simp only [partsOfForest, List.nil_append]
    cases rest with
    | nil => trivial
    | cons h t =>
      show goHasPrefix (dirOfPart h) (joinPath cp b) = false
      exact goHasPrefix_extend_false hro
  | cons t ts' =>
    have hw1 : wfTree parse t = true := by
      simp only [wfForest, Bool.and_eq_true] at hwf
      exact hwf.1
    obtain ⟨b0, p, tl, hb0, hpf, heq⟩ := partsOfTree_shape cp t hw1
    simp only [partsOfForest, heq, List.cons_append]
    show goHasPrefix (dirOfPart p) (joinPath cp b) = false
    rw [(dirOfPart_join hcp hb0 hpf).1]
    exact goHasPrefix_of_longer hb

theorem drain_wf (parse : String → Option String) :
    ∀ (n : Nat) (ts : FForest) (cp : String) (rest : List Part) (it : IterState),
      wfForest parse ts = true → ValidPath cp → headOutside cp rest →
      represents it.peek (partsOfForest cp ts ++ rest) → it.err = none →
      forestWeight ts < n →
      ∃ it' : IterState,
        drainDir parse n cp it = some (yieldsOfForest cp ts, it') ∧
        it'.err = none ∧ represents it'.peek rest := by
  intro n
  induction n with
  | zero => intro ts cp rest it _ _ _ _ _ hn; omega
  | succ n ih =>
    intro ts cp rest it hwf hcp hro hrep herr hn
    cases ts with
    | nil =>
      simp only [partsOfForest, List.nil_append] at hrep
      cases rest with
      | nil =>
        refine ⟨{ it with peek := ⟨none, none⟩ }, ?_, herr, represents_drained⟩
        rw [drainDir, next_eof hrep]
        rfl
      | cons h t =>
        have hout : newFileFromPart parse cp h = .error .partOutsideParent :=
          newFileFromPart_outside_of_validPath hcp hro
        refine ⟨{ it with peek := ⟨some h, some t⟩, err := none }, ?_, rfl,
          represents_pushed h t⟩
        rw [drainDir, next_outside hrep hout]
        rfl
    | cons t ts' =>
      have hw12 : wfTree parse t = true ∧ wfForest parse ts' = true := by
        simp only [wfForest, Bool.and_eq_true] at hwf
        exact hwf
      obtain ⟨hw1, hw2⟩ := hw12
      have hnorm : normRoot (pathClean cp) = cp := normClean_validPath hcp
      cases t with
      | file b ct ab =>
        simp only [wfTree, Bool.and_eq_true] at hw1
        obtain ⟨hvb, hct⟩ := hw1
        have hrep' : represents it.peek
            ((⟨joinPath cp b, ct, ab, some ""⟩ : Part) ::
              (partsOfForest cp ts' ++ rest)) := by
          simpa [partsOfForest, partsOfTree, List.cons_append, List.append_assoc]
            using hrep
        have hjoin := @dirOfPart_join cp b hcp hvb ⟨joinPath cp b, ct, ab, some ""⟩ rfl
        have heq : dirOfPart ⟨joinPath cp b, ct, ab, some ""⟩ = normRoot (pathClean cp) := by
          rw [hjoin.1, hnorm]
        have hclass := @classify_file parse cp ⟨joinPath cp b, ct, ab, some ""⟩ heq hct
        rw [hjoin.2] at hclass
        have hn' : forestWeight ts' < n := by
          simp only [forestWeight, treeWeight] at hn
          omega
        obtain ⟨it2, hd2, he2, hr2⟩ :=
          ih ts' cp rest ⟨⟨none, some (partsOfForest cp ts' ++ rest)⟩, b,
            some (.file ⟨joinPath cp b, ct, ab, some ""⟩ ab), none⟩
            hw2 hcp hro (represents_source _) rfl hn'
        refine ⟨it2, ?_, he2, hr2⟩
        rw [drainDir, next_yield hrep' hclass]
        simp only [hd2, yieldsOfForest, yieldsOfTree, Node.kind,
          List.cons_append, List.nil_append]
      | symlink b tg =>
        have hvb : validSeg b = true := hw1
        have hrep' : represents it.peek
            ((⟨joinPath cp b, applicationSymlink, "", some tg⟩ : Part) ::
              (partsOfForest cp ts' ++ rest)) := by
          simpa [partsOfForest, partsOfTree, List.cons_append, List.append_assoc]
            using hrep
        have hjoin := @dirOfPart_join cp b hcp hvb
          ⟨joinPath cp b, applicationSymlink, "", some tg⟩ rfl
        have heq : dirOfPart ⟨joinPath cp b, applicationSymlink, "", some tg⟩ =
            normRoot (pathClean cp) := by
          rw [hjoin.1, hnorm]
        have hclass := @classify_symlink parse cp ⟨joinPath cp b, applicationSymlink, "", some tg⟩ heq rfl tg rfl
        rw [hjoin.2] at hclass
        have hn' : forestWeight ts' < n := by
          simp only [forestWeight, treeWeight] at hn
          omega
        obtain ⟨it2, hd2, he2, hr2⟩ :=
          ih ts' cp rest ⟨⟨none, some (partsOfForest cp ts' ++ rest)⟩, b,
            some (.symlink tg), none⟩
            hw2 hcp hro (represents_source _) rfl hn'
        refine ⟨it2, ?_, he2, hr2⟩
        rw [drainDir, next_yield hrep' hclass]
        simp only [hd2, yieldsOfForest, yieldsOfTree, Node.kind,
          List.cons_append, List.nil_append]
      | dir b ct cs =>
        simp only [wfTree, Bool.and_eq_true] at hw1
        obtain ⟨⟨hvb, hdct⟩, hwcs⟩ := hw1
        have hrep' : represents it.peek
            ((⟨joinPath cp b, ct, "", some ""⟩ : Part) ::
              (partsOfForest (joinPath cp b) cs ++ (partsOfForest cp ts' ++ rest))) := by
          simpa [partsOfForest, partsOfTree, List.cons_append, List.append_assoc]
            using hrep
        have hjoin := @dirOfPart_join cp b hcp hvb ⟨joinPath cp b, ct, "", some ""⟩ rfl
        have heq : dirOfPart ⟨joinPath cp b, ct, "", some ""⟩ = normRoot (pathClean cp) := by
          rw [hjoin.1, hnorm]
        obtain ⟨mt, hpm, hmt, hclass⟩ := @classify_dir parse cp ⟨joinPath cp b, ct, "", some ""⟩ heq hdct
        rw [hjoin.2] at hclass
        have hncs : forestWeight cs < n := by
          simp only [forestWeight, treeWeight] at hn
          omega
        have hnts : forestWeight ts' < n := by
          simp only [forestWeight, treeWeight] at hn
          omega
        obtain ⟨itc, hdc, hec, hrc⟩ :=
          ih cs (joinPath cp b) (partsOfForest cp ts' ++ rest)
            ⟨⟨none, some (partsOfForest (joinPath cp b) cs ++
              (partsOfForest cp ts' ++ rest))⟩, "", none, none⟩
            hwcs (ValidPath.step cp b hcp hvb) (headOutside_sub hcp hvb hw2 hro)
            (represents_source _) rfl hncs
        obtain ⟨it2, hd2, he2, hr2⟩ :=
          ih ts' cp rest
            ⟨itc.peek, b,
              some (.dir ⟨joinPath cp b, ct, "", some ""⟩ mt), none⟩
            hw2 hcp hro hrc rfl hnts
        refine ⟨it2, ?_, he2, hr2⟩
        rw [drainDir, next_yield hrep' hclass]
        simp only [hdc, hec, hd2, yieldsOfForest, yieldsOfTree,
          List.cons_append, List.append_assoc]

/-! ## Error-range lemmas -/

theorem newFileFromPart_direct_err {parse : String → Option String} {parent : String}
    {part : Part} (heq : dirOfPart part = normRoot (pathClean parent)) {e : PartErr}
    (he : newFileFromPart parse parent part = .error e) :
    e = .ioError ∨ e = .mediaTypeParse := by
  rw [newFileFromPart_direct heq] at he
  split at he
  · cases hb : part.body with
    | none =>
      rw [hb] at he
      injection he with h
      exact Or.inl h.symm
    | some tg =>
      rw [hb] at he
      exact Except.noConfusion he
  · split at he
    · exact Except.noConfusion he
    · split at he
      · injection he with h
        exact Or.inr h.symm
      · split at he <;> exact Except.noConfusion he

theorem newFileFromPart_err_range {parse : String → Option String} {parent : String}
    {part : Part} {e : PartErr}
    (h : newFileFromPart parse parent part = .error e) :
    e = .partOutsideParent ∨ e = .partInChildTree ∨ e = .ioError ∨ e = .mediaTypeParse := by
  by_cases heq : dirOfPart part = normRoot (pathClean parent)
  · rcases newFileFromPart_direct_err heq h with h' | h'
    · exact Or.inr (Or.inr (Or.inl h'))
    · exact Or.inr (Or.inr (Or.inr h'))
  · unfold newFileFromPart at h
    rw [if_pos heq] at h
    split at h
    · injection h with h'
      exact Or.inr (Or.inl h'.symm)
    · injection h with h'
      exact Or.inl h'.symm

/-! ## The claims -/

/-- C1: for every well-formed part sequence (one generated by a well-formed
file tree), when the caller fully drains each nested directory iterator
before requesting the next sibling from its parent (the `drainDir` protocol),
the sequence of `(path, node-kind)` entries yielded by the root iterator and,
recursively, by every nested directory iterator equals the original part
sequence in order, with each directory part yielded as a directory entry
followed by its recursively yielded children, depth-first, pre-order
(`yieldsOfForest` lists exactly one entry per part, in part order); the drain
ends with no error and the trailing parts `rest` still unread. -/
theorem claim_C1 (parse : String → Option String) (n : Nat) (ts : FForest) (cp : String)
    (rest : List Part) (it : IterState)
    (hwf : wfForest parse ts = true) (hcp : ValidPath cp) (hro : headOutside cp rest)
    (hrep : represents it.peek (partsOfForest cp ts ++ rest)) (herr : it.err = none)
    (hn : forestWeight ts < n) :
    ∃ it' : IterState,
      drainDir parse n cp it = some (yieldsOfForest cp ts, it') ∧
      it'.err = none ∧ represents it'.peek rest :=
  drain_wf parse n ts cp rest it hwf hcp hro hrep herr hn

/-- C1 witness: the spec's nested scenario (directory `a` with `x.txt`,
`y.txt`, then top-level `b.txt`), drained from the root with the shared
buffer holding exactly its generated part sequence. -/
theorem claim_C1_witness :
    wfForest parse0 scenarioForest = true ∧
    yieldsOfForest "" scenarioForest =
      [("a", .dir), ("a/x.txt", .file), ("a/y.txt", .file), ("b.txt", .file)] ∧
    ∃ it' : IterState,
      drainDir parse0 5 ""
          ⟨⟨none, some (partsOfForest "" scenarioForest)⟩, "", none, none⟩ =
        some (yieldsOfForest "" scenarioForest, it') ∧
      it'.err = none ∧ represents it'.peek [] :=
  ⟨by decide, by decide,
    claim_C1 parse0 5 scenarioForest "" []
      ⟨⟨none, some (partsOfForest "" scenarioForest)⟩, "", none, none⟩
      (by decide) ValidPath.root True.intro (represents_source _) rfl (by decide)⟩

/-- C2: after normalizing the part's declared parent directory and the
current path (`path.Clean`, then `"."` and the empty string both become the
root), the classifier returns the in-child-tree error exactly when the
declared parent differs from the current path but has it as a raw string
prefix; the outside-parent error exactly when it differs and does not have it
as a prefix; and proceeds as a direct child exactly when the two are equal
(so no node is constructed in either error case); in particular a current
directory `"ab"` treats a part under `"abc/"` as in-child-tree. -/
theorem claim_C2 (parse : String → Option String) (parent : String) (part : Part) :
    (newFileFromPart parse parent part = .error .partInChildTree ↔
      (dirOfPart part ≠ normRoot (pathClean parent) ∧
        goHasPrefix (dirOfPart part) (normRoot (pathClean parent)) = true)) ∧
    (newFileFromPart parse parent part = .error .partOutsideParent ↔
      (dirOfPart part ≠ normRoot (pathClean parent) ∧
        goHasPrefix (dirOfPart part) (normRoot (pathClean parent)) = false)) ∧
    ((newFileFromPart parse parent part ≠ .error .partInChildTree ∧
      newFileFromPart parse parent part ≠ .error .partOutsideParent) ↔
      dirOfPart part = normRoot (pathClean parent)) ∧
    newFileFromPart parse "ab" ⟨"abc/file", "", "", some ""⟩ = .error .partInChildTree := by
  have hdir : ∀ heq : dirOfPart part = normRoot (pathClean parent),
      newFileFromPart parse parent part ≠ .error .partInChildTree ∧
      newFileFromPart parse parent part ≠ .error .partOutsideParent := by
    intro heq
    constructor
    · intro h
      rcases newFileFromPart_direct_err heq h with h' | h' <;> cases h'
    · intro h
      rcases newFileFromPart_direct_err heq h with h' | h' <;> cases h'
  refine ⟨⟨?_, ?_⟩, ⟨?_, ?_⟩, ⟨?_, ?_⟩, ?_⟩
  · intro h
    by_cases heq : dirOfPart part = normRoot (pathClean parent)
    · exact absurd h (hdir heq).1
    · refine ⟨heq, ?_⟩
      by_cases hpre : goHasPrefix (dirOfPart part) (normRoot (pathClean parent)) = true
      · exact hpre
      · rw [newFileFromPart_scope_outside heq (Bool.not_eq_true _ ▸ hpre)] at h
        cases h
  · rintro ⟨hne, hpre⟩
    exact newFileFromPart_scope_inChild hne hpre
  · intro h
    by_cases heq : dirOfPart part = normRoot (pathClean parent)
    · exact absurd h (hdir heq).2
    · refine ⟨heq, ?_⟩
      by_cases hpre : goHasPrefix (dirOfPart part) (normRoot (pathClean parent)) = true
      · rw [newFileFromPart_scope_inChild heq hpre] at h
        cases h
      · exact Bool.not_eq_true _ ▸ hpre
  · rintro ⟨hne, hpre⟩
    exact newFileFromPart_scope_outside hne hpre
  · intro ⟨h1, h2⟩
    by_contra heq
    by_cases hpre : goHasPrefix (dirOfPart part) (normRoot (pathClean parent)) = true
    · exact h1 (newFileFromPart_scope_inChild heq hpre)
    · exact h2 (newFileFromPart_scope_outside heq (Bool.not_eq_true _ ▸ hpre))
  · exact hdir
  · exact newFileFromPart_scope_inChild (by decide) (by decide)

/-- C3 counterexample: the claim "an Errored iterator keeps reporting the
same stored error rather than resuming" is false on the code.  With a symlink
part whose body read fails followed by a good file part, the first advance
records the I/O error and returns the stop signal, but the next advance does
not consult the stored error: it pulls the next part, yields it, and resets
the stored error to nil. -/
theorem claim_C3_counterexample :
    ((next parse0 true "" ⟨⟨none, some [cexPart1, cexPart2]⟩, "", none, none⟩).1 = false ∧
      (next parse0 true "" ⟨⟨none, some [cexPart1, cexPart2]⟩, "", none, none⟩).2.err =
        some .ioError) ∧
    (next parse0 true ""
      (next parse0 true "" ⟨⟨none, some [cexPart1, cexPart2]⟩, "", none, none⟩).2).1 = true ∧
    (next parse0 true ""
      (next parse0 true "" ⟨⟨none, some [cexPart1, cexPart2]⟩, "", none, none⟩).2).2.err =
      none := by
  decide

/-- C3 (amended): the Exhausted terminal signal is stable — once an advance
has returned the end-marker because of end-of-input, the iterator state is
unchanged and every subsequent advance returns the same end-marker; likewise
after an outside-parent stop every further advance re-reads the pushed-back
part, classifies it outside-parent again, and returns the end-marker with a
nil error, yielding no entry.  The Errored state, however, is not stable:
`Next` never consults the stored error, so a subsequent advance can succeed
and clear it (see the counterexample); the stored error persists only if the
caller stops advancing, as the traversal contract demands. -/
theorem claim_C3 (parse : String → Option String) (isPeek : Bool) (cp : String)
    (it : IterState) :
    (it.peek = ⟨none, none⟩ → next parse isPeek cp it = (false, it)) ∧
    (∀ p r, it.peek = ⟨some p, r⟩ →
      newFileFromPart parse cp p = .error .partOutsideParent →
      next parse true cp it = (false, { it with err := none })) := by
  constructor
  · intro h
    have hrep : represents it.peek [] := by
      rw [h]
      exact represents_drained
    rw [next_eof hrep, ← h]
  · intro p r h hout
    cases r with
    | some l =>
      have hrep : represents it.peek (p :: l) := by
        rw [h]
        exact represents_pushed p l
      rw [next_outside hrep hout, ← h]
    | none =>
      have hpull : peekNextPart it.peek = (some p, ⟨none, none⟩) := by
        rw [h]
        rfl
      have hsize : pkSize it.peek = 1 := by
        rw [h]
        rfl
      rw [next, hsize]
      rw [nextAux_outside hpull hout, ← h]

/-- C3 witness: a drained iterator (both the pending slot and the source
exhausted) is a fixed point of `next`. -/
theorem claim_C3_witness :
    next parse0 true "" ⟨⟨none, none⟩, "done", none, none⟩ =
      (false, ⟨⟨none, none⟩, "done", none, none⟩) :=
  (claim_C3 parse0 true "" ⟨⟨none, none⟩, "done", none, none⟩).1 rfl

/-- C9: once the underlying part source has signalled end-of-input (`r` is
nil), a pull with no pending pushed-back part returns end-of-input and leaves
the buffer state unchanged — the exhausted source is never touched again, and
by the same equation every subsequent pull returns end-of-input too. -/
theorem claim_C9 (st : PeekState) (h1 : st.next = none) (h2 : st.r = none) :
    peekNextPart st = (none, st) := by
  obtain ⟨nx, r⟩ := st
  simp only at h1 h2
  subst h1
  subst h2
  rfl

/-- C9 witness. -/
theorem claim_C9_witness :
    peekNextPart ⟨none, none⟩ = (none, (⟨none, none⟩ : PeekState)) :=
  claim_C9 ⟨none, none⟩ rfl rfl

/-- C8: the lookahead buffer holds at most one pending part: a `put` while a
part is pending fails with the protocol-violation error and leaves the state
(hence the pending part) unchanged, while a `put` into an empty slot succeeds
and makes that part the result of the next pull. -/
theorem claim_C8 (st : PeekState) (p q : Part) :
    (st.next = some q → peekPut st p = (some .cannotPutMultipleParts, st)) ∧
    (st.next = none →
      peekPut st p = (none, ⟨some p, st.r⟩) ∧
      peekNextPart ⟨some p, st.r⟩ = (some p, ⟨none, st.r⟩)) := by
  obtain ⟨nx, r⟩ := st
  constructor
  · intro h
    simp only at h
    subst h
    rfl
  · intro h
    simp only at h
    subst h
    exact ⟨rfl, rfl⟩

/-- C4: a part classified in-child-tree is discarded without being yielded
and without stopping — the loop immediately pulls the next part (first
conjunct: one retry step of the loop); in particular, for parts
`a/x.txt, a/y.txt, b.txt` against the root with no directory part `a`, the
root iterator silently drops the first two and yields `b.txt` as its sole
entry (second conjunct: the advance yields `b.txt`; third: the next advance
reports the end-marker). -/
theorem claim_C4 (parse : String → Option String) (isPeek : Bool) (cp : String)
    (n : Nat) (it : IterState) (p : Part) (pk : PeekState)
    (hpull : peekNextPart it.peek = (some p, pk))
    (hskip : newFileFromPart parse cp p = .error .partInChildTree) :
    (nextAux parse isPeek cp (n + 1) it = nextAux parse isPeek cp n { it with peek := pk }) ∧
    next parse0 true "" ⟨⟨none, some orphanParts⟩, "", none, none⟩ =
      (true, ⟨⟨none, some []⟩, "b.txt",
        some (.file ⟨"b.txt", applicationFile, "", some ""⟩ ""), none⟩) ∧
    (next parse0 true ""
      (next parse0 true "" ⟨⟨none, some orphanParts⟩, "", none, none⟩).2).1 = false :=
  ⟨nextAux_skip hpull hskip, by decide, by decide⟩

/-- C4 witness: the first advance over the orphan scenario takes one
discard step, consuming `a/x.txt` and retrying on the remaining parts. -/
theorem claim_C4_witness :
    nextAux parse0 true "" 3 ⟨⟨none, some orphanParts⟩, "", none, none⟩ =
      nextAux parse0 true "" 2
        ⟨⟨none, some [⟨"a/y.txt", applicationFile, "", some ""⟩,
          ⟨"b.txt", applicationFile, "", some ""⟩]⟩, "", none, none⟩ :=
  (claim_C4 parse0 true "" 2 ⟨⟨none, some orphanParts⟩, "", none, none⟩
    ⟨"a/x.txt", applicationFile, "", some ""⟩
    ⟨none, some [⟨"a/y.txt", applicationFile, "", some ""⟩,
      ⟨"b.txt", applicationFile, "", some ""⟩]⟩ (by decide) (by decide)).1

/-- C5: a part classified outside-parent terminates the current directory:
the loop stops and the iterator's error becomes the result of pushing the
part back (first conjunct, exactly the code's `it.err = pr.put(part)`); the
pushback succeeds because the slot was just emptied by the pull, leaving the
part pending (second conjunct) so it is the next part visible to the parent
(third conjunct); and had the slot been occupied, `put` would instead return
the protocol-violation error, which the iterator records (fourth conjunct
together with the first). -/
theorem claim_C5 (parse : String → Option String) (cp : String) (n : Nat)
    (it : IterState) (p : Part) (pk : PeekState)
    (hpull : peekNextPart it.peek = (some p, pk))
    (hout : newFileFromPart parse cp p = .error .partOutsideParent) :
    (nextAux parse true cp (n + 1) it =
      (false, { it with peek := (peekPut pk p).2, err := (peekPut pk p).1 })) ∧
    peekPut pk p = (none, ⟨some p, pk.r⟩) ∧
    peekNextPart ⟨some p, pk.r⟩ = (some p, ⟨none, pk.r⟩) ∧
    (∀ q st, PeekState.next st = some q →
      peekPut st p = (some .cannotPutMultipleParts, st)) := by
  have hempty : pk.next = none := peekNextPart_some_next hpull
  refine ⟨?_, ?_, rfl, ?_⟩
  · rw [nextAux, hpull]
    simp only [hout]
    rw [if_pos trivial]
  · obtain ⟨nx, r⟩ := pk
    simp only at hempty
    subst hempty
    rfl
  · intro q st h
    obtain ⟨nx, r⟩ := st
    simp only at h
    subst h
    rfl

/-- C5 witness: a single root-level part pulled while draining directory
`"a"` is pushed back and the iterator stops with a nil error. -/
theorem claim_C5_witness :
    nextAux parse0 true "a" 1 ⟨⟨none, some [outsidePart]⟩, "", none, none⟩ =
      (false, ⟨⟨some outsidePart, some []⟩, "", none, none⟩) :=
  (claim_C5 parse0 "a" 0 ⟨⟨none, some [outsidePart]⟩, "", none, none⟩
    outsidePart ⟨none, some []⟩ (by decide) (by decide)).1

/-- C6: for a direct-child part, `application/symlink` makes the classifier
read the whole body eagerly and return a `Symlink` node whose target is
exactly the body's text, an I/O failure during that read being returned as
an error; an empty or `application/octet-stream` content type returns a
`File` node wrapping the unread body stream tagged with the `abspath`
header, and never an error. -/
theorem claim_C6 (parse : String → Option String) (parent : String) (part : Part)
    (heq : dirOfPart part = normRoot (pathClean parent)) :
    (∀ tg, part.contentType = applicationSymlink → part.body = some tg →
      newFileFromPart parse parent part =
        .ok ((pathSplit part.filename).2, .symlink tg)) ∧
    (part.contentType = applicationSymlink → part.body = none →
      newFileFromPart parse parent part = .error .ioError) ∧
    ((part.contentType = "" ∨ part.contentType = applicationFile) →
      newFileFromPart parse parent part =
        .ok ((pathSplit part.filename).2, .file part part.abspath)) := by
  refine ⟨?_, ?_, ?_⟩
  · intro tg hct hbody
    exact classify_symlink heq hct hbody
  · intro hct hbody
    rw [newFileFromPart_direct heq, if_pos hct, hbody]
  · intro hfo
    have hsym : part.contentType ≠ applicationSymlink := by
      rcases hfo with e | e <;> rw [e] <;> decide
    rw [newFileFromPart_direct heq, if_neg hsym, if_pos hfo]

/-- C6 witness: a symlink part with body `"../target"` yields a `Symlink`
node whose target is exactly `"../target"`. -/
theorem claim_C6_witness :
    newFileFromPart parse0 "" lnkPart = .ok ("link", .symlink "../target") :=
  (claim_C6 parse0 "" lnkPart (by decide)).1 "../target" rfl rfl

/-- C7: for a direct-child part whose content type is none of the three
special leaf values, a media-type parse failure is returned as that parse
error; a parsed type recognized as a directory type (exactly
`multipart/form-data` or `application/x-directory`, last conjunct) returns a
nested `Directory` node bound to that part; and any other parsed type
returns a `File` node exactly as in the octet-stream case. -/
theorem claim_C7 (parse : String → Option String) (parent : String) (part : Part)
    (heq : dirOfPart part = normRoot (pathClean parent))
    (hne : part.contentType ≠ "") (hnf : part.contentType ≠ applicationFile)
    (hns : part.contentType ≠ applicationSymlink) :
    (parse part.contentType = none →
      newFileFromPart parse parent part = .error .mediaTypeParse) ∧
    (∀ mt, parse part.contentType = some mt → isDirectory mt = true →
      newFileFromPart parse parent part =
        .ok ((pathSplit part.filename).2, .dir part mt)) ∧
    (∀ mt, parse part.contentType = some mt → isDirectory mt = false →
      newFileFromPart parse parent part =
        .ok ((pathSplit part.filename).2, .file part part.abspath)) ∧
    (∀ mt, isDirectory mt = true ↔
      (mt = multipartFormdataType ∨ mt = applicationDirectory)) := by
  have hbase : newFileFromPart parse parent part =
      (match parse part.contentType with
       | none => .error .mediaTypeParse
       | some mt =>
         if isDirectory mt then .ok ((pathSplit part.filename).2, .dir part mt)
         else .ok ((pathSplit part.filename).2, .file part part.abspath)) := by
    rw [newFileFromPart_direct heq, if_neg hns, if_neg ?_]
    rintro (e | e)
    · exact hne e
    · exact hnf e
  refine ⟨?_, ?_, ?_, ?_⟩
  · intro hp
    rw [hbase, hp]
  · intro mt hp hd
    rw [hbase, hp]
    simp [hd]
  · intro mt hp hd
    rw [hbase, hp]
    simp [hd]
  · intro mt
    simp [isDirectory]

/-- C7 witness: an `application/x-directory` part at the root becomes a
nested directory node bound to that part. -/
theorem claim_C7_witness :
    newFileFromPart parse0 "" xdirPart = .ok ("d", .dir xdirPart applicationDirectory) :=
  (claim_C7 parse0 "" xdirPart (by decide) (by decide) (by decide)
    (by decide)).2.1 applicationDirectory (by decide) (by decide)

/-- C10: in a traversal rooted at `NewFileFromPartReader` both failure
branches of the outside-parent pushback in `Next` are unreachable: the root
constructor installs the shared `peekReader` (second conjunct — every
iterator in the traversal tree reuses it, so the type assertion giving
"cannot undo NextPart" never fires); at the moment of pushback the slot is
always empty because the pushed-back part was just pulled from it (first
conjunct), so `put` giving "cannot put multiple parts" never fires: an
advance never introduces either error (third conjunct), and a single
outside-parent part always ends the directory as Exhausted with a nil error
(fourth conjunct). -/
theorem claim_C10 (parse : String → Option String) (cp : String) (n : Nat)
    (it : IterState) :
    (∀ p pk, peekNextPart it.peek = (some p, pk) → pk.next = none) ∧
    (∀ parts mediatype ps b,
      NewFileFromPartReader parts mediatype = .ok (ps, b) → b = true) ∧
    (it.err ≠ some .cannotPutMultipleParts → it.err ≠ some .cannotUndoNextPart →
      (nextAux parse true cp n it).2.err ≠ some .cannotPutMultipleParts ∧
      (nextAux parse true cp n it).2.err ≠ some .cannotUndoNextPart) ∧
    (∀ p pk, peekNextPart it.peek = (some p, pk) →
      newFileFromPart parse cp p = .error .partOutsideParent →
      nextAux parse true cp (n + 1) it =
        (false, { it with peek := ⟨some p, pk.r⟩, err := none })) := by
  refine ⟨fun p pk h => peekNextPart_some_next h, ?_, ?_,
    fun p pk h1 h2 => nextAux_outside h1 h2⟩
  · intro parts mediatype ps b h
    unfold NewFileFromPartReader at h
    split at h
    · injection h with h'
      injection h' with hps hb
      exact hb.symm
    · exact Except.noConfusion h
  · induction n generalizing it with
    | zero =>
      intro h1 h2
      exact ⟨h1, h2⟩
    | succ m ihm =>
      intro h1 h2
      cases hpull : peekNextPart it.peek with
      | mk op pk =>
        cases op with
        | none =>
          rw [nextAux_eof hpull]
          exact ⟨h1, h2⟩
        | some p =>
          cases hcl : newFileFromPart parse cp p with
          | error e =>
            rcases newFileFromPart_err_range hcl with he | he | he | he
            · subst he
              rw [nextAux_outside hpull hcl]
              simp
            · subst he
              rw [nextAux_skip hpull hcl]
              exact ihm { it with peek := pk } h1 h2
            · subst he
              rw [nextAux_fail hpull hcl (by simp) (by simp)]
              simp
            · subst he
              rw [nextAux_fail hpull hcl (by simp) (by simp)]
              simp
          | ok v =>
            obtain ⟨nm, nd⟩ := v
            rw [nextAux_yield hpull hcl]
            simp

end MultipartFiles
